import Mathlib

/-!
Verification development for the `gum` goroutine unit manager
(`manager.go`).  The Go code is shallowly embedded: Go strings are
modelled as lists of characters, Go buffered channels as a bounded
queue with a closed flag, and the supervisor's event loop both as
per-event straight-line traces (the body of each `select` case is
straight-line code) and as a labelled small-step machine for the
blocking behaviour of channel operations.
-/

namespace Gum

/-- Go strings, modelled as lists of characters. -/
abbrev GoStr := List Char

/-- OS signals (`os.Signal`), opaque: modelled as natural numbers. -/
abbrev Sig := Nat

/-- Error values (`error`), opaque: modelled as natural numbers. -/
abbrev Err := Nat

/-- A Go buffered channel: a FIFO buffer bounded by `cap`, plus the
closed flag.  `make(chan T, n)` is `⟨[], n, false⟩`. -/
structure Chan (α : Type) where
  buf : List α
  cap : Nat
  closed : Bool
deriving DecidableEq

/-- `c <- v`.  Returns `none` when the send cannot complete now:
either the channel is closed (a Go run-time fault) or the buffer is
full (the sender blocks). -/
def chanSend {α : Type} (c : Chan α) (v : α) : Option (Chan α) :=
  if c.closed then none
  else if c.buf.length < c.cap then some { c with buf := c.buf ++ [v] }
  else none

/-- `<-c`.  Returns `none` when the buffer is empty (the receiver
blocks; the closed-channel zero-value read does not occur in this
program's receive positions before close). -/
def chanRecv {α : Type} (c : Chan α) : Option (α × Chan α) :=
  match c.buf with
  | [] => none
  | v :: rest => some (v, { c with buf := rest })

/-- `close(c)`.  Returns `none` when the channel is already closed
(a Go run-time fault). -/
def chanClose {α : Type} (c : Chan α) : Option (Chan α) :=
  if c.closed then none else some { c with closed := true }

/-- `WorkUnitManager` (manager.go).  The `unit` field (the caller's
task value) is opaque and carried nowhere; the shared `panic` sink
channel belongs to the `Manager` and is threaded explicitly where
needed. -/
structure WorkUnitManager where
  stop : Chan Bool
  workerQuit : Chan Bool
  isPaniced : Bool
deriving DecidableEq

/-- The four effects `WorkUnitManager.Panic` performs, in program
order, as observable events. -/
inductive Effect where
  | sendPanic (e : Err)
  | setFailed
  | signalDone
  | closeStop
deriving DecidableEq

/-- `func (w *WorkUnitManager) Panic(err error)`:
`w.panic <- err; w.isPaniced = true; w.workerQuit <- true;
close(w.stop)`.  The shared sink is passed in and returned; the
result also carries the ordered effect trace.  `none` means some
channel operation could not complete (blocked or faulted). -/
def WorkUnitManager.Panic (w : WorkUnitManager) (sink : Chan Err) (err : Err) :
    Option (WorkUnitManager × Chan Err × List Effect) := do
  let sink' ← chanSend sink err
  let w1 : WorkUnitManager := { w with isPaniced := true }
  let wq ← chanSend w1.workerQuit true
  let w2 : WorkUnitManager := { w1 with workerQuit := wq }
  let st ← chanClose w2.stop
  some ({ w2 with stop := st }, sink',
    [Effect.sendPanic err, Effect.setFailed, Effect.signalDone, Effect.closeStop])

/-- `func (w *WorkUnitManager) Done()`: `w.workerQuit <- true`. -/
def WorkUnitManager.Done (w : WorkUnitManager) : Option WorkUnitManager := do
  let wq ← chanSend w.workerQuit true
  some { w with workerQuit := wq }

/-- `Manager` (manager.go).  The registry `workers` is a Go
`map[string]*WorkUnitManager`; it is modelled as an association list
in an arbitrary order, since Go map iteration order is arbitrary:
every theorem below quantifies over the list, hence over every
possible iteration order. -/
structure Manager where
  signalIn : Chan Sig
  shutdownSigs : List Sig
  workers : List (GoStr × WorkUnitManager)
  Quit : Chan Bool
  panic : Chan Err
deriving DecidableEq

/-- `func NewManager() *Manager`: all channels of capacity 1, empty
registry, no armed signals. -/
def NewManager : Manager :=
  { signalIn := ⟨[], 1, false⟩
    shutdownSigs := []
    workers := []
    Quit := ⟨[], 1, false⟩
    panic := ⟨[], 1, false⟩ }

/-- `func in(arr []os.Signal, sig os.Signal) bool`:
`slices.Contains(arr, sig)`. -/
def inArr (arr : List Sig) (sig : Sig) : Bool :=
  arr.contains sig

/-- `func (m *Manager) ShutdownOn(sig ...os.Signal)` (the
`signal.Notify` subscription is an OS side effect outside the model):
appends the signals to `shutdownSigs`. -/
def Manager.ShutdownOn (m : Manager) (sig : List Sig) : Manager :=
  { m with shutdownSigs := m.shutdownSigs ++ sig }

/-- Observable supervisor actions of the `Run` event loop, in the
order the loop performs them (`log` calls carrying no decision are
elided; the panic-attribution log line is kept because it is where
the loop inspects the failed flag). -/
inductive Action where
  | sendStop (name : GoStr)
  | logPanicked (name : GoStr) (e : Err)
  | waitDone (name : GoStr)
  | sendQuit
deriving DecidableEq

/-- Body of `case sig := <-m.signalIn:` in `Manager.Run`: if the
signal is not armed, `break` (no actions); otherwise send stop to
every worker, then receive from every worker's `workerQuit`, then
send on `Quit`. -/
def signalCaseTrace (sigs : List Sig) (sig : Sig) (ws : List (GoStr × WorkUnitManager)) :
    List Action :=
  if !inArr sigs sig then []
  else
    (ws.map fun nw => Action.sendStop nw.1)
      ++ (ws.map fun nw => Action.waitDone nw.1)
      ++ [Action.sendQuit]

/-- Body of `case p := <-m.panic:` in `Manager.Run`: log the failure
for every worker whose `isPaniced` flag is set; send stop to every
worker whose flag is not set; receive from every worker's
`workerQuit`; send on `Quit`. -/
def panicCaseTrace (ws : List (GoStr × WorkUnitManager)) (p : Err) : List Action :=
  (ws.filterMap fun nw =>
      if nw.2.isPaniced then some (Action.logPanicked nw.1 p) else none)
    ++ (ws.filterMap fun nw =>
      if !nw.2.isPaniced then some (Action.sendStop nw.1) else none)
    ++ (ws.map fun nw => Action.waitDone nw.1)
    ++ [Action.sendQuit]

/-- An event the `select` statement can receive: an OS signal on
`m.signalIn`, or a failure report drained from `m.panic`. -/
inductive Event where
  | signal (s : Sig)
  | panicReport (e : Err)
deriving DecidableEq

/-- One iteration of the `for { select { ... } }` loop of
`Manager.Run`: the trace of the chosen case's body. -/
def Manager.runStep (m : Manager) (e : Event) : List Action :=
  match e with
  | Event.signal s => signalCaseTrace m.shutdownSigs s m.workers
  | Event.panicReport p => panicCaseTrace m.workers p

/-- The trace of `Manager.Run` over a sequence of delivered events.
Faithful to the source: no case of the `select` exits the outer
`for`, so after each event the loop simply handles the next one. -/
def Manager.runTrace (m : Manager) : List Event → List Action
  | [] => []
  | e :: rest => m.runStep e ++ m.runTrace rest

/-- Whether an event makes the loop run a shutdown (an armed signal,
or any failure report). -/
def triggers (m : Manager) : Event → Bool
  | Event.signal s => inArr m.shutdownSigs s
  | Event.panicReport _ => true

/-! ### Unit naming (`genID`, `Manager.AddUnit`) -/

/-- Decimal digits of a natural number, most significant first: the
meaning of the `%d` verb in `fmt.Sprintf`. -/
def natDigits (n : Nat) : List Char :=
  if n < 10 then [Nat.digitChar n]
  else natDigits (n / 10) ++ [Nat.digitChar (n % 10)]
decreasing_by exact Nat.div_lt_self (by omega) (by omega)

/-- `fmt.Sprintf("%s[%s", name, unitClass)`: the composite counter
key used by `AddUnit`. -/
def keyOf (name cls : GoStr) : GoStr :=
  name ++ '[' :: cls

/-- `fmt.Sprintf("%s#%d]", unitName, unitID)`: the final display
name. -/
def mkName (key : GoStr) (id : Nat) : GoStr :=
  key ++ '#' :: (natDigits id ++ [']'])

/-- The state captured by the `genID` closure: the Go
`map[string]int` (absent keys read as 0, the map's zero value). -/
abbrev IDGenState := GoStr → Nat

/-- The map made by `genID`'s `make(map[string]int)`. -/
def genIDInit : IDGenState := fun _ => 0

/-- One call of the closure returned by `genID`:
`ret := ids[unit]; ids[unit]++; return ret`. -/
def genIDStep (ids : IDGenState) (unit : GoStr) : Nat × IDGenState :=
  (ids unit, fun k => if k = unit then ids unit + 1 else ids k)

/-- `strings.Split(s, ".")`, accumulator form (the accumulator holds
the current segment reversed). -/
def splitOnDotAux : List Char → List Char → List GoStr
  | [], acc => [acc.reverse]
  | c :: rest, acc =>
      if c = '.' then acc.reverse :: splitOnDotAux rest []
      else splitOnDotAux rest (c :: acc)

/-- `strings.Split(s, ".")`. -/
def splitOnDot (s : GoStr) : List GoStr :=
  splitOnDotAux s []

/-- `func (m *Manager) AddUnit(unit WorkUnit, name string)`.  The
runtime type string `reflect.TypeOf(unit).String()` is the
`typeStr` argument (the unit value itself is opaque).  The package
level `idGenerator` closure state is threaded explicitly.  `none`
models the run-time panic of `strings.Split(...)[1]` when the type
string has no `"."`. -/
def Manager.AddUnit (m : Manager) (ids : IDGenState) (typeStr name : GoStr) :
    Option (Manager × IDGenState) := do
  let workUnitManager : WorkUnitManager :=
    { workerQuit := ⟨[], 1, false⟩, stop := ⟨[], 1, false⟩, isPaniced := false }
  let cls ← (splitOnDot typeStr).get? 1
  let key := keyOf name cls
  let unitID := (genIDStep ids key).1
  let unitName := mkName key unitID
  some ({ m with workers := m.workers ++ [(unitName, workUnitManager)] },
    (genIDStep ids key).2)

/-- The counter values handed out by `genID` along a sequence of
keys. -/
def assignedIDs (ids : IDGenState) : List GoStr → List Nat
  | [] => []
  | k :: rest => (genIDStep ids k).1 :: assignedIDs (genIDStep ids k).2 rest

/-- The counter keys of a registration sequence of
(label, type-class) pairs. -/
def regKeys (regs : List (GoStr × GoStr)) : List GoStr :=
  regs.map fun r => keyOf r.1 r.2

/-- The display names produced by registering, in order, the given
(label, type-class) pairs on a fresh generator. -/
def regNames (regs : List (GoStr × GoStr)) : List GoStr :=
  List.zipWith mkName (regKeys regs) (assignedIDs genIDInit (regKeys regs))

/-! ### Small-step machine for the blocking behaviour of `Run` -/

/-- Per-worker channel state seen by the machine: buffered element
counts of the capacity-1 `stop` and `workerQuit` channels, the
`stop` closed flag, and the `isPaniced` flag. -/
structure MWorker where
  name : GoStr
  stopBuf : Nat
  stopClosed : Bool
  doneBuf : Nat
  isPaniced : Bool
deriving DecidableEq

/-- Names of a worker list, in registry order. -/
def wnames (ws : List MWorker) : List GoStr :=
  ws.map fun w => w.name

/-- Where the supervisor's control is inside `Run`: blocked at the
`select`, part-way through the stop-broadcast loop, or part-way
through the done-wait loop. -/
inductive MPhase where
  | selecting
  | stopping (targets : List GoStr)
  | waiting (pending : List GoStr)
deriving DecidableEq

/-- Machine state: the registry, the supervisor's position, and how
many times `m.Quit <- true` has completed. -/
structure MState where
  workers : List MWorker
  phase : MPhase
  quitCount : Nat
deriving DecidableEq

/-- Scheduler labels: supervisor steps (receiving an event, one stop
send, entering the wait loop, one done receive, the quit send) and
the environment step of a unit signalling its `workerQuit`
channel. -/
inductive MLabel where
  | recvSignal (s : Sig)
  | recvPanic (e : Err)
  | sendStop
  | beginWait
  | recvDone
  | sendQuit
  | unitDone (n : GoStr)
deriving DecidableEq

/-- First worker with the given name (registry lookup). -/
def findWorker (ws : List MWorker) (n : GoStr) : Option MWorker :=
  ws.find? fun w => w.name = n

/-- Replace every worker with the given name. -/
def setWorker (ws : List MWorker) (n : GoStr) (w' : MWorker) : List MWorker :=
  ws.map fun w => if w.name = n then w' else w

/-- One step of the machine; `none` when the labelled step is blocked
or impossible in the given state.  Channel sends respect capacity 1
and sends on a closed channel do not complete. -/
def mstep (sigs : List Sig) (s : MState) (l : MLabel) : Option MState :=
  match l with
  | MLabel.recvSignal sg =>
      match s.phase with
      | MPhase.selecting =>
          if inArr sigs sg then some { s with phase := MPhase.stopping (wnames s.workers) }
          else some s
      | _ => none
  | MLabel.recvPanic _ =>
      match s.phase with
      | MPhase.selecting =>
          some { s with phase :=
            MPhase.stopping (wnames (s.workers.filter fun w => !w.isPaniced)) }
      | _ => none
  | MLabel.sendStop =>
      match s.phase with
      | MPhase.stopping (n :: rest) =>
          match findWorker s.workers n with
          | none => none
          | some w =>
              if w.stopClosed then none
              else if w.stopBuf < 1 then
                some { s with
                  workers := setWorker s.workers n { w with stopBuf := w.stopBuf + 1 }
                  phase := MPhase.stopping rest }
              else none
      | _ => none
  | MLabel.beginWait =>
      match s.phase with
      | MPhase.stopping [] => some { s with phase := MPhase.waiting (wnames s.workers) }
      | _ => none
  | MLabel.recvDone =>
      match s.phase with
      | MPhase.waiting (n :: rest) =>
          match findWorker s.workers n with
          | none => none
          | some w =>
              if 0 < w.doneBuf then
                some { s with
                  workers := setWorker s.workers n { w with doneBuf := w.doneBuf - 1 }
                  phase := MPhase.waiting rest }
              else none
      | _ => none
  | MLabel.sendQuit =>
      match s.phase with
      | MPhase.waiting [] =>
          some { s with quitCount := s.quitCount + 1, phase := MPhase.selecting }
      | _ => none
  | MLabel.unitDone n =>
      match findWorker s.workers n with
      | none => none
      | some w =>
          if w.doneBuf < 1 then
            some { s with
              workers := setWorker s.workers n { w with doneBuf := w.doneBuf + 1 } }
          else none

/-- Run the machine over a label sequence. -/
def mrun (sigs : List Sig) : MState → List MLabel → Option MState
  | s, [] => some s
  | s, l :: rest => (mstep sigs s l).bind fun s' => mrun sigs s' rest

/-- The state in which `Manager.Run` starts its event loop: all
workers launched, supervisor at the `select`, quit not yet
signalled. -/
def initState (ws : List MWorker) : MState :=
  { workers := ws, phase := MPhase.selecting, quitCount := 0 }

/-- The name a `sendStop` action addresses, if any. -/
def stopTarget : Action → Option GoStr
  | Action.sendStop n => some n
  | _ => none

/-! ### Helper lemmas -/

lemma filterMap_if_eq_map_filter {α β : Type} (p : α → Bool) (g : α → β) (l : List α) :
    (l.filterMap fun a => if p a then some (g a) else none) = (l.filter p).map g := by
  induction l with
  | nil => rfl
  | cons a t ih => cases h : p a <;> simp [h, ih]

lemma sendQuit_not_mem_sendStop_map (ws : List (GoStr × WorkUnitManager)) :
    Action.sendQuit ∉ ws.map fun nw => Action.sendStop nw.1 := by
  intro h
  rcases List.mem_map.mp h with ⟨nw, _, hEq⟩
  exact Action.noConfusion hEq

lemma sendQuit_not_mem_waitDone_map (ws : List (GoStr × WorkUnitManager)) :
    Action.sendQuit ∉ ws.map fun nw => Action.waitDone nw.1 := by
  intro h
  rcases List.mem_map.mp h with ⟨nw, _, hEq⟩
  exact Action.noConfusion hEq

lemma sendQuit_not_mem_log_filterMap (ws : List (GoStr × WorkUnitManager)) (p : Err) :
    Action.sendQuit ∉ ws.filterMap
      fun nw => if nw.2.isPaniced then some (Action.logPanicked nw.1 p) else none := by
  intro h
  rcases List.mem_filterMap.mp h with ⟨nw, _, hEq⟩
  split at hEq
  · exact Action.noConfusion (Option.some.inj hEq)
  · exact Option.noConfusion hEq

lemma sendQuit_not_mem_stop_filterMap (ws : List (GoStr × WorkUnitManager)) :
    Action.sendQuit ∉ ws.filterMap
      fun nw => if !nw.2.isPaniced then some (Action.sendStop nw.1) else none := by
  intro h
  rcases List.mem_filterMap.mp h with ⟨nw, _, hEq⟩
  split at hEq
  · exact Action.noConfusion (Option.some.inj hEq)
  · exact Option.noConfusion hEq

lemma count_sendQuit_runStep (m : Manager) (e : Event) :
    (m.runStep e).count Action.sendQuit = if triggers m e then 1 else 0 := by
  cases e with
  | signal s =>
      cases h : inArr m.shutdownSigs s with
      | false => simp [Manager.runStep, signalCaseTrace, triggers, h]
      | true =>
          have c1 := List.count_eq_zero.mpr (sendQuit_not_mem_sendStop_map m.workers)
          have c2 := List.count_eq_zero.mpr (sendQuit_not_mem_waitDone_map m.workers)
          simp [Manager.runStep, signalCaseTrace, triggers, h, List.count_append, c1, c2]
  | panicReport p =>
      have c1 := List.count_eq_zero.mpr (sendQuit_not_mem_log_filterMap m.workers p)
      have c2 := List.count_eq_zero.mpr (sendQuit_not_mem_stop_filterMap m.workers)
      have c3 := List.count_eq_zero.mpr (sendQuit_not_mem_waitDone_map m.workers)
      simp [Manager.runStep, panicCaseTrace, triggers, List.count_append, c1, c3]
      simpa using c2

lemma sendStop_injective : Function.Injective Action.sendStop := by
  intro a b h
  injection h

lemma stop_filterMap_eq (ws : List (GoStr × WorkUnitManager)) :
    (ws.filterMap fun nw => if !nw.2.isPaniced then some (Action.sendStop nw.1) else none)
      = ((ws.filter fun nw => !nw.2.isPaniced).map Prod.fst).map Action.sendStop := by
  rw [filterMap_if_eq_map_filter (fun nw => !nw.2.isPaniced)
    (fun nw => Action.sendStop nw.1) ws, List.map_map]
  rfl

lemma count_sendStop_panicCase (ws : List (GoStr × WorkUnitManager)) (p : Err) (n : GoStr) :
    (panicCaseTrace ws p).count (Action.sendStop n)
      = ((ws.filter fun nw => !nw.2.isPaniced).map Prod.fst).count n := by
  have c1 : (ws.filterMap fun nw =>
      if nw.2.isPaniced then some (Action.logPanicked nw.1 p) else none).count
        (Action.sendStop n) = 0 := by
    refine List.count_eq_zero.mpr ?_
    intro h
    rcases List.mem_filterMap.mp h with ⟨nw, _, hEq⟩
    split at hEq
    · exact Action.noConfusion (Option.some.inj hEq)
    · exact Option.noConfusion hEq
  have c3 : (ws.map fun nw => Action.waitDone nw.1).count (Action.sendStop n) = 0 := by
    refine List.count_eq_zero.mpr ?_
    intro h
    rcases List.mem_map.mp h with ⟨nw, _, hEq⟩
    exact Action.noConfusion hEq
  have cmap : ∀ (l : List GoStr),
      (l.map Action.sendStop).count (Action.sendStop n) = l.count n := by
    intro l
    induction l with
    | nil => rfl
    | cons b t ih => simp [List.count_cons, ih, Action.sendStop.injEq]
  have c2 : (ws.filterMap fun nw =>
      if !nw.2.isPaniced then some (Action.sendStop nw.1) else none).count
        (Action.sendStop n)
      = ((ws.filter fun nw => !nw.2.isPaniced).map Prod.fst).count n := by
    rw [stop_filterMap_eq, cmap]
  have c4 : List.count (Action.sendStop n) [Action.sendQuit] = 0 := by
    refine List.count_eq_zero.mpr ?_
    intro h
    rcases List.mem_singleton.mp h with hEq
    exact Action.noConfusion hEq
  rw [panicCaseTrace, List.count_append, List.count_append, List.count_append,
    c1, c2, c3, c4]
  omega

lemma count_le_one_of_nodup (a : GoStr) :
    ∀ l : List GoStr, l.Nodup → l.count a ≤ 1 := by
  intro l
  induction l with
  | nil => intro _; simp
  | cons b t ih =>
      intro h
      rcases List.nodup_cons.mp h with ⟨hb, ht⟩
      rcases eq_or_ne a b with hba | hba
      · subst hba
        have h0 : t.count a = 0 := List.count_eq_zero.mpr hb
        simp [List.count_cons, h0]
      · have h1 := ih ht
        have hne : ¬ b = a := fun hEq => hba hEq.symm
        simp [List.count_cons, hne]
        omega

/-- **C1**: for every armed shutdown signal handled by the event
loop, the trace of the signal case sends quit exactly once and only
after receiving from every registered unit's done channel. -/
theorem signal_shutdown_quit_once_after_all_done
    (sigs : List Sig) (s : Sig) (ws : List (GoStr × WorkUnitManager))
    (h : inArr sigs s = true) :
    ∃ pre, signalCaseTrace sigs s ws = pre ++ [Action.sendQuit]
      ∧ Action.sendQuit ∉ pre
      ∧ (signalCaseTrace sigs s ws).count Action.sendQuit = 1
      ∧ ∀ nw ∈ ws, Action.waitDone nw.1 ∈ pre := by
  refine ⟨(ws.map fun nw => Action.sendStop nw.1) ++ (ws.map fun nw => Action.waitDone nw.1),
    ?_, ?_, ?_, ?_⟩
  · simp [signalCaseTrace, h]
  · intro hm
    rcases List.mem_append.mp hm with hm | hm
    · exact sendQuit_not_mem_sendStop_map ws hm
    · exact sendQuit_not_mem_waitDone_map ws hm
  · have c1 := List.count_eq_zero.mpr (sendQuit_not_mem_sendStop_map ws)
    have c2 := List.count_eq_zero.mpr (sendQuit_not_mem_waitDone_map ws)
    simp [signalCaseTrace, h, List.count_append, c1, c2]
  · intro nw hnw
    exact List.mem_append.mpr (Or.inr (List.mem_map.mpr ⟨nw, hnw, rfl⟩))

/-- Witness for C1 on one concrete registered unit. -/
theorem signal_shutdown_quit_once_after_all_done_witness :
    ∃ pre, signalCaseTrace [0] 0 [(['a'], ⟨⟨[], 1, false⟩, ⟨[], 1, false⟩, false⟩)]
        = pre ++ [Action.sendQuit]
      ∧ Action.sendQuit ∉ pre
      ∧ (signalCaseTrace [0] 0
          [(['a'], ⟨⟨[], 1, false⟩, ⟨[], 1, false⟩, false⟩)]).count Action.sendQuit = 1
      ∧ ∀ nw ∈ [((['a'] : GoStr), (⟨⟨[], 1, false⟩, ⟨[], 1, false⟩, false⟩ : WorkUnitManager))],
          Action.waitDone nw.1 ∈ pre :=
  signal_shutdown_quit_once_after_all_done [0] 0 _ (by decide)

/-- **C2**: when a failure report is drained, the panic case of the
event loop stops exactly the units whose failed flag is unset, stops
no failed unit, waits on every unit's done channel before the single
quit send, and performs nothing else with the error beyond logging:
the whole observable behaviour is in the trace. -/
theorem panic_shutdown_stop_exactly_nonfailed
    (ws : List (GoStr × WorkUnitManager)) (p : Err)
    (hn : (ws.map Prod.fst).Nodup) :
    ∃ pre, panicCaseTrace ws p = pre ++ [Action.sendQuit]
      ∧ Action.sendQuit ∉ pre
      ∧ (panicCaseTrace ws p).count Action.sendQuit = 1
      ∧ (∀ nw ∈ ws, Action.waitDone nw.1 ∈ pre)
      ∧ (∀ nw ∈ ws, nw.2.isPaniced = true →
          (panicCaseTrace ws p).count (Action.sendStop nw.1) = 0)
      ∧ ∀ nw ∈ ws, nw.2.isPaniced = false →
          (panicCaseTrace ws p).count (Action.sendStop nw.1) = 1 := by
  refine ⟨(ws.filterMap fun nw =>
        if nw.2.isPaniced then some (Action.logPanicked nw.1 p) else none)
      ++ ((ws.filterMap fun nw =>
        if !nw.2.isPaniced then some (Action.sendStop nw.1) else none)
      ++ (ws.map fun nw => Action.waitDone nw.1)),
    ?_, ?_, ?_, ?_, ?_, ?_⟩
  · simp [panicCaseTrace]
  · intro hm
    rcases List.mem_append.mp hm with hm | hm
    · exact sendQuit_not_mem_log_filterMap ws p hm
    rcases List.mem_append.mp hm with hm | hm
    · exact sendQuit_not_mem_stop_filterMap ws hm
    · exact sendQuit_not_mem_waitDone_map ws hm
  · have c1 := List.count_eq_zero.mpr (sendQuit_not_mem_log_filterMap ws p)
    have c2 := List.count_eq_zero.mpr (sendQuit_not_mem_stop_filterMap ws)
    have c3 := List.count_eq_zero.mpr (sendQuit_not_mem_waitDone_map ws)
    simp [panicCaseTrace, List.count_append, c1, c3]
    simpa using c2
  · intro nw hnw
    exact List.mem_append.mpr (Or.inr (List.mem_append.mpr
      (Or.inr (List.mem_map.mpr ⟨nw, hnw, rfl⟩))))
  · intro nw hnw hflag
    rw [count_sendStop_panicCase]
    refine List.count_eq_zero.mpr ?_
    intro hmem
    rcases List.mem_map.mp hmem with ⟨nw', hnw', hfst⟩
    have hws' : nw' ∈ ws := (List.mem_filter.mp hnw').1
    have hflag' : nw'.2.isPaniced = false := by
      have := (List.mem_filter.mp hnw').2
      simpa using this
    have : nw' = nw := List.inj_on_of_nodup_map hn hws' hnw hfst
    rw [this] at hflag'
    rw [hflag] at hflag'
    exact Bool.noConfusion hflag'
  · intro nw hnw hflag
    rw [count_sendStop_panicCase]
    have hmem : nw ∈ ws.filter fun nw => !nw.2.isPaniced :=
      List.mem_filter.mpr ⟨hnw, by simp [hflag]⟩
    have hge : 1 ≤ ((ws.filter fun nw => !nw.2.isPaniced).map Prod.fst).count nw.1 :=
      List.one_le_count_iff.mpr (List.mem_map.mpr ⟨nw, hmem, rfl⟩)
    have hle : ((ws.filter fun nw => !nw.2.isPaniced).map Prod.fst).count nw.1
        ≤ (ws.map Prod.fst).count nw.1 :=
      ((ws.filter_sublist (p := fun nw => !nw.2.isPaniced)).map Prod.fst).count_le nw.1
    have hone := count_le_one_of_nodup nw.1 (ws.map Prod.fst) hn
    omega

/-- Witness for C2: one failed and one running unit. -/
theorem panic_shutdown_stop_exactly_nonfailed_witness :
    ∃ pre, panicCaseTrace
        [(['a'], ⟨⟨[], 1, true⟩, ⟨[], 1, false⟩, true⟩),
         (['b'], ⟨⟨[], 1, false⟩, ⟨[], 1, false⟩, false⟩)] 7
        = pre ++ [Action.sendQuit]
      ∧ Action.sendQuit ∉ pre
      ∧ (panicCaseTrace
          [(['a'], ⟨⟨[], 1, true⟩, ⟨[], 1, false⟩, true⟩),
           (['b'], ⟨⟨[], 1, false⟩, ⟨[], 1, false⟩, false⟩)] 7).count Action.sendQuit = 1
      ∧ (∀ nw ∈ [((['a'] : GoStr), (⟨⟨[], 1, true⟩, ⟨[], 1, false⟩, true⟩ : WorkUnitManager)),
           (['b'], ⟨⟨[], 1, false⟩, ⟨[], 1, false⟩, false⟩)], Action.waitDone nw.1 ∈ pre)
      ∧ (∀ nw ∈ [((['a'] : GoStr), (⟨⟨[], 1, true⟩, ⟨[], 1, false⟩, true⟩ : WorkUnitManager)),
           (['b'], ⟨⟨[], 1, false⟩, ⟨[], 1, false⟩, false⟩)], nw.2.isPaniced = true →
          (panicCaseTrace
            [(['a'], ⟨⟨[], 1, true⟩, ⟨[], 1, false⟩, true⟩),
             (['b'], ⟨⟨[], 1, false⟩, ⟨[], 1, false⟩, false⟩)] 7).count
              (Action.sendStop nw.1) = 0)
      ∧ ∀ nw ∈ [((['a'] : GoStr), (⟨⟨[], 1, true⟩, ⟨[], 1, false⟩, true⟩ : WorkUnitManager)),
           (['b'], ⟨⟨[], 1, false⟩, ⟨[], 1, false⟩, false⟩)], nw.2.isPaniced = false →
          (panicCaseTrace
            [(['a'], ⟨⟨[], 1, true⟩, ⟨[], 1, false⟩, true⟩),
             (['b'], ⟨⟨[], 1, false⟩, ⟨[], 1, false⟩, false⟩)] 7).count
              (Action.sendStop nw.1) = 1 :=
  panic_shutdown_stop_exactly_nonfailed _ 7 (by decide)

lemma stopTargets_panicCase (ws : List (GoStr × WorkUnitManager)) (p : Err) :
    (panicCaseTrace ws p).filterMap stopTarget
      = (ws.filter fun nw => !nw.2.isPaniced).map Prod.fst := by
  have l1 : (ws.filterMap fun nw =>
      if nw.2.isPaniced then some (Action.logPanicked nw.1 p) else none).filterMap
        stopTarget = [] := by
    rw [List.filterMap_eq_nil_iff]
    intro a ha
    rcases List.mem_filterMap.mp ha with ⟨nw, _, hEq⟩
    split at hEq
    · rw [← Option.some.inj hEq]; rfl
    · exact Option.noConfusion hEq
  have l2 : (ws.filterMap fun nw =>
      if !nw.2.isPaniced then some (Action.sendStop nw.1) else none).filterMap
        stopTarget = (ws.filter fun nw => !nw.2.isPaniced).map Prod.fst := by
    rw [stop_filterMap_eq]
    induction ((ws.filter fun nw => !nw.2.isPaniced).map Prod.fst) with
    | nil => rfl
    | cons b t ih => simp [stopTarget, ih]
  have l3 : (ws.map fun nw => Action.waitDone nw.1).filterMap stopTarget = [] := by
    rw [List.filterMap_eq_nil_iff]
    intro a ha
    rcases List.mem_map.mp ha with ⟨nw, _, hEq⟩
    rw [← hEq]; rfl
  rw [panicCaseTrace, List.filterMap_append, List.filterMap_append,
    List.filterMap_append, l1, l2, l3]
  simp [stopTarget]

/-- **C3**: `Panic` performs, in order: send the error to the shared
failure sink, set the failed flag, signal the done channel, close
the stop channel; and the event loop's panic case chooses which
units to stop from the failed flags alone — its stop targets are the
non-failed units and do not depend on the drained error value. -/
theorem Panic_ordered_effects
    (w : WorkUnitManager) (sink : Chan Err) (err : Err)
    (h1 : sink.closed = false) (h2 : sink.buf.length < sink.cap)
    (h3 : w.workerQuit.closed = false) (h4 : w.workerQuit.buf.length < w.workerQuit.cap)
    (h5 : w.stop.closed = false) :
    (w.Panic sink err =
      some ({ w with isPaniced := true
                     workerQuit := { w.workerQuit with buf := w.workerQuit.buf ++ [true] }
                     stop := { w.stop with closed := true } },
            { sink with buf := sink.buf ++ [err] },
            [Effect.sendPanic err, Effect.setFailed, Effect.signalDone, Effect.closeStop]))
    ∧ ∀ (ws : List (GoStr × WorkUnitManager)) (p q : Err),
        (panicCaseTrace ws p).filterMap stopTarget
            = (ws.filter fun nw => !nw.2.isPaniced).map Prod.fst
        ∧ (panicCaseTrace ws p).filterMap stopTarget
            = (panicCaseTrace ws q).filterMap stopTarget := by
  constructor
  · simp [WorkUnitManager.Panic, chanSend, chanClose, h1, h2, h3, h4, h5]
  · intro ws p q
    exact ⟨stopTargets_panicCase ws p,
      (stopTargets_panicCase ws p).trans (stopTargets_panicCase ws q).symm⟩

/-- Witness for C3 at a fresh unit and empty sink. -/
theorem Panic_ordered_effects_witness :
    (WorkUnitManager.Panic ⟨⟨[], 1, false⟩, ⟨[], 1, false⟩, false⟩ ⟨[], 1, false⟩ 5 =
      some (⟨⟨[], 1, true⟩, ⟨[true], 1, false⟩, true⟩, ⟨[5], 1, false⟩,
        [Effect.sendPanic 5, Effect.setFailed, Effect.signalDone, Effect.closeStop]))
    ∧ ∀ (ws : List (GoStr × WorkUnitManager)) (p q : Err),
        (panicCaseTrace ws p).filterMap stopTarget
            = (ws.filter fun nw => !nw.2.isPaniced).map Prod.fst
        ∧ (panicCaseTrace ws p).filterMap stopTarget
            = (panicCaseTrace ws q).filterMap stopTarget :=
  Panic_ordered_effects ⟨⟨[], 1, false⟩, ⟨[], 1, false⟩, false⟩ ⟨[], 1, false⟩ 5
    rfl (by decide) rfl (by decide) rfl

/-- **C5** (counterexample): the event loop does not exit after
signalling quit, and quit is not signalled exactly once per run:
with no units and signal 0 armed, two armed deliveries are both
handled and quit is sent twice — the loop continued past the first
quit send instead of terminating. -/
theorem run_loop_never_exits_counterexample :
    (NewManager.ShutdownOn [0]).runTrace [Event.signal 0, Event.signal 0]
      = [Action.sendQuit, Action.sendQuit] := by decide

/-- **C5** (amended): each shutdown trigger makes the loop signal
quit exactly once and then continue with the next event — over any
event sequence, quit fires once per triggering event; the loop never
exits and `Run` never returns. -/
theorem runTrace_quit_once_per_trigger (m : Manager) (evts : List Event) :
    (m.runTrace evts).count Action.sendQuit = evts.countP (triggers m) := by
  induction evts with
  | nil => rfl
  | cons e rest ih =>
      rw [Manager.runTrace, List.count_append, ih, List.countP_cons,
        count_sendQuit_runStep]
      cases h : triggers m e with
      | false => simp [h]
      | true => simp [h]; omega

/-- **C6**: a signal outside the armed shutdown set produces no
actions (no stop notifications, no quit), and in the small-step
machine the supervisor returns unchanged to the `select`, still
running. -/
theorem unarmed_signal_ignored
    (sigs : List Sig) (s : Sig) (ws : List (GoStr × WorkUnitManager)) (st : MState)
    (hph : st.phase = MPhase.selecting) (h : inArr sigs s = false) :
    signalCaseTrace sigs s ws = [] ∧ mstep sigs st (MLabel.recvSignal s) = some st := by
  constructor
  · simp [signalCaseTrace, h]
  · obtain ⟨ws', ph, q⟩ := st
    have hph' : ph = MPhase.selecting := hph
    subst hph'
    simp [mstep, h]

/-- Witness for C6 at a concrete non-armed signal. -/
theorem unarmed_signal_ignored_witness :
    signalCaseTrace [1] 0 [(['a'], ⟨⟨[], 1, false⟩, ⟨[], 1, false⟩, false⟩)] = []
      ∧ mstep [1] (initState [⟨['a'], 0, false, 0, false⟩]) (MLabel.recvSignal 0)
        = some (initState [⟨['a'], 0, false, 0, false⟩]) :=
  unarmed_signal_ignored [1] 0 _ _ rfl (by decide)

/-- **C8** (counterexample): the shared failure sink constructed by
`NewManager` has capacity 1, so it never holds two pending reports:
after one successful send the next send does not complete. -/
theorem failure_sink_capacity_counterexample :
    NewManager.panic.cap = 1
    ∧ chanSend NewManager.panic 0 = some ⟨[0], 1, false⟩
    ∧ chanSend (⟨[0], 1, false⟩ : Chan Err) 1 = none := by decide

/-- **C8** (amended): the failure sink buffers at most one report at
a time (capacity 1; a further concurrent reporter blocks until it is
drained); the event loop drains and reacts to one report at a time
and proceeds to the full shutdown ending in quit; further drained
reports have no additional effect on reaching termination — each is
handled by the same unconditional shutdown. -/
theorem failure_sink_single_report :
    (∀ (c : Chan Err) (v : Err) (c' : Chan Err), c.cap = 1 → chanSend c v = some c' →
        c'.buf.length ≤ 1)
    ∧ (∀ (ws : List (GoStr × WorkUnitManager)) (p : Err),
        ∃ pre, panicCaseTrace ws p = pre ++ [Action.sendQuit])
    ∧ ∀ (m : Manager) (e1 e2 : Err),
        (m.runTrace [Event.panicReport e1, Event.panicReport e2]).count Action.sendQuit
          = 2 := by
  refine ⟨?_, ?_, ?_⟩
  · intro c v c' hcap hsend
    rw [chanSend] at hsend
    split at hsend
    · exact Option.noConfusion hsend
    split at hsend
    · rw [← Option.some.inj hsend]
      simp only [List.length_append, List.length_singleton]
      omega
    · exact Option.noConfusion hsend
  · intro ws p
    exact ⟨(ws.filterMap fun nw =>
        if nw.2.isPaniced then some (Action.logPanicked nw.1 p) else none)
      ++ ((ws.filterMap fun nw =>
        if !nw.2.isPaniced then some (Action.sendStop nw.1) else none)
      ++ (ws.map fun nw => Action.waitDone nw.1)), by simp [panicCaseTrace]⟩
  · intro m e1 e2
    rw [runTrace_quit_once_per_trigger]
    rfl

/-- Witness for C8 (amended) at the `NewManager` sink. -/
theorem failure_sink_single_report_witness :
    (⟨[0], 1, false⟩ : Chan Err).buf.length ≤ 1 :=
  failure_sink_single_report.1 NewManager.panic 0 ⟨[0], 1, false⟩ rfl (by decide)

/-- **C10**: with zero registered units, an armed shutdown signal
still completes the protocol: the broadcast and wait loops are
vacuous and the trace is exactly one quit send. -/
theorem zero_units_signal_quits (sigs : List Sig) (s : Sig) (h : inArr sigs s = true) :
    signalCaseTrace sigs s [] = [Action.sendQuit] := by
  simp [signalCaseTrace, h]

/-- Witness for C10 at signal 0 armed. -/
theorem zero_units_signal_quits_witness :
    signalCaseTrace [0] 0 [] = [Action.sendQuit] :=
  zero_units_signal_quits [0] 0 (by decide)

lemma splitOnDotAux_no_dot :
    ∀ (s acc : List Char), '.' ∉ s → splitOnDotAux s acc = [acc.reverse ++ s] := by
  intro s
  induction s with
  | nil => intro acc _; simp [splitOnDotAux]
  | cons c rest ih =>
      intro acc h
      have hc : ¬ c = '.' := fun hEq => h (by rw [hEq]; exact List.mem_cons_self _ _)
      have hr : '.' ∉ rest := fun hm => h (List.mem_cons_of_mem _ hm)
      rw [splitOnDotAux, if_neg hc, ih (c :: acc) hr]
      simp

/-- **C9**: registration takes the second "."-separated segment of
the runtime type string; when the type string contains no "." the
list index 1 is out of range and `AddUnit` panics (`none`) instead
of succeeding, while a type string with a "." registers a unit named
from segment 1. -/
theorem AddUnit_panics_without_dot
    (m : Manager) (ids : IDGenState) (typeStr name : GoStr) (h : '.' ∉ typeStr) :
    m.AddUnit ids typeStr name = none
    ∧ ∀ (t cls : GoStr), (splitOnDot t).get? 1 = some cls →
        m.AddUnit ids t name = some
          ({ m with workers := m.workers ++
              [(mkName (keyOf name cls) (ids (keyOf name cls)),
                ⟨⟨[], 1, false⟩, ⟨[], 1, false⟩, false⟩)] },
            (genIDStep ids (keyOf name cls)).2) := by
  constructor
  · have hs : splitOnDot typeStr = [typeStr] := by
      rw [splitOnDot, splitOnDotAux_no_dot typeStr [] h]
      rfl
    simp [Manager.AddUnit, hs]
  · intro t cls hc
    rw [List.get?_eq_getElem?] at hc
    simp [Manager.AddUnit, hc, genIDStep]

/-- Witness for C9 at the dotless type string "Work" (and the dotted
"m.W"). -/
theorem AddUnit_panics_without_dot_witness :
    Manager.AddUnit NewManager genIDInit ['W', 'o', 'r', 'k'] ['w'] = none :=
  (AddUnit_panics_without_dot NewManager genIDInit ['W', 'o', 'r', 'k'] ['w']
    (by decide)).1

/-! ### Decimal digits and name injectivity (for C4) -/

lemma natDigits_eq (n : Nat) :
    natDigits n = if n < 10 then [Nat.digitChar n]
      else natDigits (n / 10) ++ [Nat.digitChar (n % 10)] := by
  rw [natDigits]

lemma natDigits_ne_nil (n : Nat) : natDigits n ≠ [] := by
  rw [natDigits_eq]
  split
  · simp
  · simp

lemma digitChar_lt_ten :
    ∀ m < 10, Nat.digitChar m ∈
      (['0', '1', '2', '3', '4', '5', '6', '7', '8', '9'] : List Char) := by decide

lemma digitChar_inj_lt_ten :
    ∀ a < 10, ∀ b < 10, Nat.digitChar a = Nat.digitChar b → a = b := by decide

lemma natDigits_mem_digits :
    ∀ n : Nat, ∀ c ∈ natDigits n,
      c ∈ (['0', '1', '2', '3', '4', '5', '6', '7', '8', '9'] : List Char) := by
  intro n
  induction n using Nat.strong_induction_on with
  | _ n ih =>
      by_cases h : n < 10
      · rw [natDigits_eq, if_pos h]
        intro c hc
        rw [List.mem_singleton] at hc
        subst hc
        exact digitChar_lt_ten n h
      · rw [natDigits_eq, if_neg h]
        intro c hc
        rcases List.mem_append.mp hc with hc | hc
        · exact ih (n / 10) (Nat.div_lt_self (by omega) (by omega)) c hc
        · rw [List.mem_singleton] at hc
          subst hc
          exact digitChar_lt_ten (n % 10) (Nat.mod_lt _ (by omega))

lemma natDigits_ne_hash (n : Nat) : ∀ c ∈ natDigits n, ¬ c = '#' := by
  intro c hc hEq
  have hmem := natDigits_mem_digits n c hc
  rw [hEq] at hmem
  exact absurd hmem (by decide)

lemma natDigits_inj : ∀ m n : Nat, natDigits m = natDigits n → m = n := by
  intro m
  induction m using Nat.strong_induction_on with
  | _ m ih =>
      intro n hEq
      by_cases hm : m < 10 <;> by_cases hn : n < 10
      · rw [natDigits_eq m, if_pos hm, natDigits_eq n, if_pos hn] at hEq
        simp only [List.cons.injEq, and_true] at hEq
        exact digitChar_inj_lt_ten m hm n hn hEq
      · rw [natDigits_eq m, if_pos hm, natDigits_eq n, if_neg hn] at hEq
        have h1 : (1 : Nat) = (natDigits (n / 10)).length + 1 := by
          have := congrArg List.length hEq
          simpa using this
        have h2 : natDigits (n / 10) = [] := List.length_eq_zero.mp (by omega)
        exact absurd h2 (natDigits_ne_nil _)
      · rw [natDigits_eq m, if_neg hm, natDigits_eq n, if_pos hn] at hEq
        have h1 : (natDigits (m / 10)).length + 1 = (1 : Nat) := by
          have := congrArg List.length hEq
          simpa using this
        have h2 : natDigits (m / 10) = [] := List.length_eq_zero.mp (by omega)
        exact absurd h2 (natDigits_ne_nil _)
      · rw [natDigits_eq m, if_neg hm, natDigits_eq n, if_neg hn] at hEq
        obtain ⟨hstem, hlast⟩ := List.append_inj' hEq rfl
        have hdiv : m / 10 = n / 10 :=
          ih (m / 10) (Nat.div_lt_self (by omega) (by omega)) (n / 10) hstem
        have hmod : m % 10 = n % 10 := by
          have h1 : Nat.digitChar (m % 10) = Nat.digitChar (n % 10) := by
            simpa using hlast
          exact digitChar_inj_lt_ten _ (Nat.mod_lt _ (by omega))
            _ (Nat.mod_lt _ (by omega)) h1
        omega

lemma append_hash_inj :
    ∀ (k1 : List Char) {k2 t1 t2 : List Char},
      (∀ c ∈ t1, ¬ c = '#') → (∀ c ∈ t2, ¬ c = '#') →
      k1 ++ '#' :: t1 = k2 ++ '#' :: t2 → k1 = k2 ∧ t1 = t2 := by
  intro k1
  induction k1 with
  | nil =>
      intro k2 t1 t2 h1 h2 hEq
      cases k2 with
      | nil =>
          obtain ⟨_, ht⟩ := List.cons.inj hEq
          exact ⟨rfl, ht⟩
      | cons b k2' =>
          simp only [List.nil_append, List.cons_append] at hEq
          obtain ⟨_, ht⟩ := List.cons.inj hEq
          exfalso
          refine h1 '#' ?_ rfl
          rw [ht]
          exact List.mem_append.mpr (Or.inr (List.mem_cons_self _ _))
  | cons a k1' ih =>
      intro k2 t1 t2 h1 h2 hEq
      cases k2 with
      | nil =>
          simp only [List.cons_append, List.nil_append] at hEq
          obtain ⟨_, ht⟩ := List.cons.inj hEq
          exfalso
          refine h2 '#' ?_ rfl
          rw [← ht]
          exact List.mem_append.mpr (Or.inr (List.mem_cons_self _ _))
      | cons b k2' =>
          simp only [List.cons_append] at hEq
          obtain ⟨hb, ht⟩ := List.cons.inj hEq
          obtain ⟨hk, htt⟩ := ih h1 h2 ht
          exact ⟨by rw [hb, hk], htt⟩

lemma mkName_inj {k1 k2 : GoStr} {i1 i2 : Nat}
    (h : mkName k1 i1 = mkName k2 i2) : k1 = k2 ∧ i1 = i2 := by
  rw [mkName, mkName] at h
  have h1 : ∀ c ∈ natDigits i1 ++ [']'], ¬ c = '#' := by
    intro c hc
    rcases List.mem_append.mp hc with hc | hc
    · exact natDigits_ne_hash i1 c hc
    · rw [List.mem_singleton] at hc
      subst hc
      decide
  have h2 : ∀ c ∈ natDigits i2 ++ [']'], ¬ c = '#' := by
    intro c hc
    rcases List.mem_append.mp hc with hc | hc
    · exact natDigits_ne_hash i2 c hc
    · rw [List.mem_singleton] at hc
      subst hc
      decide
  obtain ⟨hk, ht⟩ := append_hash_inj k1 h1 h2 h
  refine ⟨hk, ?_⟩
  obtain ⟨hd, _⟩ := List.append_inj' ht rfl
  exact natDigits_inj i1 i2 hd

lemma assignedIDs_length (keys : List GoStr) :
    ∀ ids : IDGenState, (assignedIDs ids keys).length = keys.length := by
  induction keys with
  | nil => intro ids; rfl
  | cons k rest ih => intro ids; simp [assignedIDs, ih]

lemma assignedIDs_get? :
    ∀ (keys : List GoStr) (ids : IDGenState) (i : Nat) (h : i < keys.length),
      (assignedIDs ids keys).get? i
        = some (ids (keys.get ⟨i, h⟩) + (keys.take i).count (keys.get ⟨i, h⟩)) := by
  intro keys
  induction keys with
  | nil =>
      intro ids i h
      exact absurd h (by simp)
  | cons k rest ih =>
      intro ids i h
      cases i with
      | zero => simp [assignedIDs, genIDStep]
      | succ j =>
          have hj : j < rest.length := by simpa using h
          rw [assignedIDs, List.get?_cons_succ, ih (genIDStep ids k).2 j hj]
          by_cases hak : rest.get ⟨j, hj⟩ = k
          · simp only [List.get_eq_getElem, Fin.val_mk] at hak ⊢
            simp [genIDStep, List.count_cons, hak]
            try omega
          · have hak2 : ¬ k = rest.get ⟨j, hj⟩ := fun hEq => hak hEq.symm
            simp only [List.get_eq_getElem, Fin.val_mk] at hak hak2 ⊢
            simp [genIDStep, List.count_cons, hak, hak2]
            try omega

lemma assignedIDs_init_get? (keys : List GoStr) (i : Nat) (h : i < keys.length) :
    (assignedIDs genIDInit keys).get? i
      = some ((keys.take i).count (keys.get ⟨i, h⟩)) := by
  rw [assignedIDs_get? keys genIDInit i h]
  simp [genIDInit]

lemma count_take_lt (keys : List GoStr) (i j : Nat) (hi : i < keys.length)
    (hj : j < keys.length) (hij : i < j)
    (hkey : keys.get ⟨i, hi⟩ = keys.get ⟨j, hj⟩) :
    (keys.take i).count (keys.get ⟨j, hj⟩) < (keys.take j).count (keys.get ⟨j, hj⟩) := by
  have h1 : keys.take (i + 1) = keys.take i ++ [keys.get ⟨j, hj⟩] := by
    rw [List.take_succ, List.getElem?_eq_getElem hi]
    rw [← hkey]
    rfl
  have h2 : (keys.take (i + 1)).count (keys.get ⟨j, hj⟩)
      = (keys.take i).count (keys.get ⟨j, hj⟩) + 1 := by
    rw [h1, List.count_append, List.count_singleton_self]
  have h3 : List.Sublist (keys.take (i + 1)) (keys.take j) :=
    List.take_sublist_take_left keys (by omega)
  have h4 := h3.count_le (keys.get ⟨j, hj⟩)
  omega

lemma assignedIDs_strict (keys : List GoStr) (i j : Nat) (hi : i < keys.length)
    (hj : j < keys.length) (hij : i < j)
    (hkey : keys.get ⟨i, hi⟩ = keys.get ⟨j, hj⟩) (a b : Nat)
    (ha : (assignedIDs genIDInit keys).get? i = some a)
    (hb : (assignedIDs genIDInit keys).get? j = some b) : a < b := by
  rw [assignedIDs_init_get? keys i hi] at ha
  rw [assignedIDs_init_get? keys j hj] at hb
  have ha' : a = (keys.take i).count (keys.get ⟨i, hi⟩) := (Option.some.inj ha).symm
  have hb' : b = (keys.take j).count (keys.get ⟨j, hj⟩) := (Option.some.inj hb).symm
  have hlt := count_take_lt keys i j hi hj hij hkey
  rw [hkey] at ha'
  omega

/-- **C4**: for every registration sequence, units sharing the same
(label, unit type) counter key receive strictly increasing suffixes
(a later registration of the same key gets a larger id), a first
occurrence of a key gets suffix 0, and all generated display names
`label[type#suffix]` are pairwise distinct, even when the same label
and type are reused. -/
theorem regNames_unique (regs : List (GoStr × GoStr)) :
    (∀ i j (hi : i < (regKeys regs).length) (hj : j < (regKeys regs).length)
        (a b : Nat), i < j →
        (regKeys regs).get ⟨i, hi⟩ = (regKeys regs).get ⟨j, hj⟩ →
        (assignedIDs genIDInit (regKeys regs)).get? i = some a →
        (assignedIDs genIDInit (regKeys regs)).get? j = some b →
        a < b)
    ∧ (∀ i (hi : i < (regKeys regs).length),
        (regKeys regs).get ⟨i, hi⟩ ∉ (regKeys regs).take i →
        (assignedIDs genIDInit (regKeys regs)).get? i = some 0)
    ∧ (regNames regs).Nodup := by
  refine ⟨?_, ?_, ?_⟩
  · intro i j hi hj a b hij hkey ha hb
    exact assignedIDs_strict (regKeys regs) i j hi hj hij hkey a b ha hb
  · intro i hi hmem
    rw [assignedIDs_init_get? (regKeys regs) i hi,
      List.count_eq_zero.mpr hmem]
  · have hlen : (assignedIDs genIDInit (regKeys regs)).length
        = (regKeys regs).length := assignedIDs_length (regKeys regs) genIDInit
    rw [regNames, List.nodup_iff_injective_get]
    intro x y hEq
    rw [List.get_zipWith, List.get_zipWith] at hEq
    obtain ⟨hkeq, hideq⟩ := mkName_inj hEq
    obtain ⟨i, hix⟩ := x
    obtain ⟨j, hjx⟩ := y
    have hi : i < (regKeys regs).length :=
      List.lt_length_left_of_zipWith hix
    have hj : j < (regKeys regs).length :=
      List.lt_length_left_of_zipWith hjx
    have hi2 : i < (assignedIDs genIDInit (regKeys regs)).length := by omega
    have hj2 : j < (assignedIDs genIDInit (regKeys regs)).length := by omega
    rcases Nat.lt_trichotomy i j with hij | hij | hij
    · exfalso
      have hlt := assignedIDs_strict (regKeys regs) i j hi hj hij hkeq _ _
        (List.get?_eq_get hi2) (List.get?_eq_get hj2)
      have hideq' : (assignedIDs genIDInit (regKeys regs)).get ⟨i, hi2⟩
          = (assignedIDs genIDInit (regKeys regs)).get ⟨j, hj2⟩ := hideq
      omega
    · exact Fin.ext hij
    · exfalso
      have hlt := assignedIDs_strict (regKeys regs) j i hj hi hij hkeq.symm _ _
        (List.get?_eq_get hj2) (List.get?_eq_get hi2)
      have hideq' : (assignedIDs genIDInit (regKeys regs)).get ⟨i, hi2⟩
          = (assignedIDs genIDInit (regKeys regs)).get ⟨j, hj2⟩ := hideq
      omega

/-- Witness for C4: registering the same (label, type) twice gives
suffixes 0 then 1 and distinct names. -/
theorem regNames_unique_witness :
    (0 : Nat) < 1
    ∧ (regNames [((['w'] : GoStr), (['W'] : GoStr)), (['w'], ['W'])]).Nodup :=
  ⟨(regNames_unique [(['w'], ['W']), (['w'], ['W'])]).1 0 1 (by decide) (by decide) 0 1
      (by decide) (by decide) (by decide) (by decide),
    (regNames_unique [(['w'], ['W']), (['w'], ['W'])]).2.2⟩

/-! ### The stuck-unit property (C7) -/

lemma setWorker_cons (w : MWorker) (t : List MWorker) (n : GoStr) (w' : MWorker) :
    setWorker (w :: t) n w' = (if w.name = n then w' else w) :: setWorker t n w' := rfl

lemma findWorker_cons (w : MWorker) (t : List MWorker) (j : GoStr) :
    findWorker (w :: t) j = if w.name = j then some w else findWorker t j := by
  by_cases h : w.name = j
  · rw [if_pos h, findWorker, List.find?_cons_of_pos _ (by simp [h])]
  · rw [if_neg h, findWorker, List.find?_cons_of_neg _ (by simp [h])]
    rfl

lemma wnames_setWorker (ws : List MWorker) (n : GoStr) (w' : MWorker)
    (h : w'.name = n) : wnames (setWorker ws n w') = wnames ws := by
  induction ws with
  | nil => rfl
  | cons w t ih =>
      show (if w.name = n then w' else w).name :: wnames (setWorker t n w')
        = w.name :: wnames t
      rw [ih]
      by_cases hw : w.name = n
      · rw [if_pos hw, h, hw]
      · rw [if_neg hw]

lemma findWorker_name (ws : List MWorker) (n : GoStr) (w : MWorker)
    (h : findWorker ws n = some w) : w.name = n := by
  rw [findWorker] at h
  have h2 := List.find?_some h
  simp only [decide_eq_true_eq] at h2
  exact h2

lemma findWorker_setWorker_ne (ws : List MWorker) (n j : GoStr) (w' : MWorker)
    (hne : j ≠ n) (hw' : w'.name = n) :
    findWorker (setWorker ws n w') j = findWorker ws j := by
  induction ws with
  | nil => rfl
  | cons w t ih =>
      rw [setWorker_cons, findWorker_cons, findWorker_cons]
      by_cases hw : w.name = n
      · have h1 : ¬ w'.name = j := by rw [hw']; exact fun hEq => hne hEq.symm
        have h2 : ¬ w.name = j := by rw [hw]; exact fun hEq => hne hEq.symm
        rw [if_pos hw, if_neg h1, if_neg h2, ih]
      · rw [if_neg hw]
        by_cases hwj : w.name = j
        · rw [if_pos hwj, if_pos hwj]
        · rw [if_neg hwj, if_neg hwj, ih]

lemma findWorker_setWorker_self (ws : List MWorker) (n : GoStr) (w w' : MWorker)
    (hfind : findWorker ws n = some w) (hw' : w'.name = n) :
    findWorker (setWorker ws n w') n = some w' := by
  induction ws with
  | nil => exact Option.noConfusion hfind
  | cons x t ih =>
      rw [setWorker_cons, findWorker_cons]
      rw [findWorker_cons] at hfind
      by_cases hx : x.name = n
      · rw [if_pos hx, if_pos hw']
      · rw [if_neg hx] at hfind
        rw [if_neg hx, if_neg hx]
        exact ih hfind

lemma mstep_inv (sigs : List Sig) (j : GoStr) (s s1 : MState) (l : MLabel)
    (hl : l ≠ MLabel.unitDone j)
    (hq : s.quitCount = 0)
    (hd : ∀ w, findWorker s.workers j = some w → w.doneBuf = 0)
    (hp : ∀ pending, s.phase = MPhase.waiting pending → j ∈ pending)
    (hj : j ∈ wnames s.workers)
    (hstep : mstep sigs s l = some s1) :
    s1.quitCount = 0
    ∧ (∀ w, findWorker s1.workers j = some w → w.doneBuf = 0)
    ∧ (∀ pending, s1.phase = MPhase.waiting pending → j ∈ pending)
    ∧ j ∈ wnames s1.workers := by
  obtain ⟨ws, ph, q⟩ := s
  simp only at hq hd hp hj
  cases l with
  | recvSignal sg =>
      cases ph with
      | selecting =>
          simp only [mstep] at hstep
          by_cases harm : inArr sigs sg = true
          · rw [if_pos harm] at hstep
            obtain h1 := Option.some.inj hstep
            subst h1
            exact ⟨hq, hd, fun pending hpd => MPhase.noConfusion hpd, hj⟩
          · rw [if_neg harm] at hstep
            obtain h1 := Option.some.inj hstep
            subst h1
            exact ⟨hq, hd, fun pending hpd => MPhase.noConfusion hpd, hj⟩
      | stopping t => exact Option.noConfusion hstep
      | waiting t => exact Option.noConfusion hstep
  | recvPanic e =>
      cases ph with
      | selecting =>
          simp only [mstep] at hstep
          obtain h1 := Option.some.inj hstep
          subst h1
          exact ⟨hq, hd, fun pending hpd => MPhase.noConfusion hpd, hj⟩
      | stopping t => exact Option.noConfusion hstep
      | waiting t => exact Option.noConfusion hstep
  | sendStop =>
      cases ph with
      | selecting => exact Option.noConfusion hstep
      | stopping targets =>
          cases targets with
          | nil => exact Option.noConfusion hstep
          | cons n rest =>
              unfold mstep at hstep
              dsimp only at hstep
              cases hfind : findWorker ws n with
              | none => rw [hfind] at hstep; exact Option.noConfusion hstep
              | some w =>
                  rw [hfind] at hstep
                  dsimp only at hstep
                  by_cases hcl : w.stopClosed = true
                  · rw [if_pos hcl] at hstep
                    exact Option.noConfusion hstep
                  · rw [if_neg hcl] at hstep
                    by_cases hbuf : w.stopBuf < 1
                    · rw [if_pos hbuf] at hstep
                      obtain h1 := Option.some.inj hstep
                      subst h1
                      have hwname : w.name = n := findWorker_name ws n w hfind
                      have hwname2 : ({ w with stopBuf := w.stopBuf + 1 } : MWorker).name = n :=
                        hwname
                      refine ⟨hq, ?_, fun pending hpd => MPhase.noConfusion hpd, ?_⟩
                      · intro w2 hw2
                        by_cases hjn : j = n
                        · subst hjn
                          rw [findWorker_setWorker_self ws j w _ hfind hwname2] at hw2
                          obtain h2 := Option.some.inj hw2
                          rw [← h2]
                          exact hd w hfind
                        · rw [findWorker_setWorker_ne ws n j _ hjn hwname2] at hw2
                          exact hd w2 hw2
                      · rw [wnames_setWorker ws n _ hwname2]
                        exact hj
                    · rw [if_neg hbuf] at hstep
                      exact Option.noConfusion hstep
      | waiting t => exact Option.noConfusion hstep
  | beginWait =>
      cases ph with
      | selecting => exact Option.noConfusion hstep
      | stopping targets =>
          cases targets with
          | nil =>
              simp only [mstep] at hstep
              obtain h1 := Option.some.inj hstep
              subst h1
              refine ⟨hq, hd, ?_, hj⟩
              intro pending hpd
              obtain h2 := MPhase.waiting.inj hpd
              rw [← h2]
              exact hj
          | cons n rest => exact Option.noConfusion hstep
      | waiting t => exact Option.noConfusion hstep
  | recvDone =>
      cases ph with
      | selecting => exact Option.noConfusion hstep
      | stopping t => exact Option.noConfusion hstep
      | waiting pend =>
          cases pend with
          | nil => exact Option.noConfusion hstep
          | cons n rest =>
              unfold mstep at hstep
              dsimp only at hstep
              cases hfind : findWorker ws n with
              | none => rw [hfind] at hstep; exact Option.noConfusion hstep
              | some w =>
                  rw [hfind] at hstep
                  dsimp only at hstep
                  by_cases hbuf : 0 < w.doneBuf
                  · rw [if_pos hbuf] at hstep
                    obtain h1 := Option.some.inj hstep
                    subst h1
                    have hwname : w.name = n := findWorker_name ws n w hfind
                    have hwname2 : ({ w with doneBuf := w.doneBuf - 1 } : MWorker).name = n :=
                      hwname
                    have hjn : j ≠ n := by
                      intro hEq
                      subst hEq
                      have h0 := hd w hfind
                      omega
                    have hjpend : j ∈ n :: rest := hp (n :: rest) rfl
                    have hjrest : j ∈ rest := by
                      rcases List.mem_cons.mp hjpend with hEq | hm
                      · exact absurd hEq hjn
                      · exact hm
                    refine ⟨hq, ?_, ?_, ?_⟩
                    · intro w2 hw2
                      rw [findWorker_setWorker_ne ws n j _ hjn hwname2] at hw2
                      exact hd w2 hw2
                    · intro pending hpd
                      obtain h2 := MPhase.waiting.inj hpd
                      rw [← h2]
                      exact hjrest
                    · rw [wnames_setWorker ws n _ hwname2]
                      exact hj
                  · rw [if_neg hbuf] at hstep
                    exact Option.noConfusion hstep
  | sendQuit =>
      cases ph with
      | selecting => exact Option.noConfusion hstep
      | stopping t => exact Option.noConfusion hstep
      | waiting pend =>
          cases pend with
          | nil => exact absurd (hp [] rfl) (List.not_mem_nil j)
          | cons n rest => exact Option.noConfusion hstep
  | unitDone n =>
      have hjn : j ≠ n := fun hEq => hl (by rw [hEq])
      unfold mstep at hstep
      dsimp only at hstep
      cases hfind : findWorker ws n with
      | none => rw [hfind] at hstep; exact Option.noConfusion hstep
      | some w =>
          rw [hfind] at hstep
          dsimp only at hstep
          by_cases hbuf : w.doneBuf < 1
          · rw [if_pos hbuf] at hstep
            obtain h1 := Option.some.inj hstep
            subst h1
            have hwname : w.name = n := findWorker_name ws n w hfind
            have hwname2 : ({ w with doneBuf := w.doneBuf + 1 } : MWorker).name = n := hwname
            refine ⟨hq, ?_, hp, ?_⟩
            · intro w2 hw2
              rw [findWorker_setWorker_ne ws n j _ hjn hwname2] at hw2
              exact hd w2 hw2
            · rw [wnames_setWorker ws n _ hwname2]
              exact hj
          · rw [if_neg hbuf] at hstep
            exact Option.noConfusion hstep

lemma mrun_inv (sigs : List Sig) (j : GoStr) :
    ∀ (tr : List MLabel) (s s' : MState),
      (∀ l ∈ tr, l ≠ MLabel.unitDone j) →
      s.quitCount = 0 →
      (∀ w, findWorker s.workers j = some w → w.doneBuf = 0) →
      (∀ pending, s.phase = MPhase.waiting pending → j ∈ pending) →
      j ∈ wnames s.workers →
      mrun sigs s tr = some s' →
      s'.quitCount = 0 := by
  intro tr
  induction tr with
  | nil =>
      intro s s' _ hq _ _ _ hrun
      obtain h1 := Option.some.inj hrun
      rw [← h1]
      exact hq
  | cons l rest ih =>
      intro s s' hnd hq hd hp hj hrun
      rw [mrun] at hrun
      cases hms : mstep sigs s l with
      | none => rw [hms] at hrun; exact Option.noConfusion hrun
      | some s1 =>
          rw [hms] at hrun
          simp only [Option.some_bind] at hrun
          have hl : l ≠ MLabel.unitDone j := hnd l (List.mem_cons_self _ _)
          obtain ⟨hq1, hd1, hp1, hj1⟩ := mstep_inv sigs j s s1 l hl hq hd hp hj hms
          exact ih s1 s' (fun l2 hl2 => hnd l2 (List.mem_cons_of_mem _ hl2)) hq1 hd1 hp1 hj1 hrun

/-- **C7**: if a registered unit `j` never signals its done channel
(no `unitDone j` step ever occurs), then no schedule of the
supervisor's event loop — shutdown triggers included — can ever
complete `m.Quit <- true`: the done-wait loop blocks on `j` forever
and the quit count stays 0 (no timeout exists in the machine). -/
theorem stuck_unit_blocks_quit (sigs : List Sig) (j : GoStr) (ws : List MWorker)
    (tr : List MLabel) (s' : MState)
    (hj : j ∈ wnames ws)
    (hinit : ∀ w, findWorker ws j = some w → w.doneBuf = 0)
    (hnd : ∀ l ∈ tr, l ≠ MLabel.unitDone j)
    (hrun : mrun sigs (initState ws) tr = some s') :
    s'.quitCount = 0 :=
  mrun_inv sigs j tr (initState ws) s' hnd rfl hinit
    (fun _ hpd => MPhase.noConfusion hpd) hj hrun

/-- Witness for C7: one unit, an armed signal arrives, stop is sent,
the wait loop is entered; the quit count is 0. -/
theorem stuck_unit_blocks_quit_witness :
    (MState.mk [⟨['w'], 1, false, 0, false⟩] (MPhase.waiting [['w']]) 0).quitCount = 0 :=
  stuck_unit_blocks_quit [0] ['w'] [⟨['w'], 0, false, 0, false⟩]
    [MLabel.recvSignal 0, MLabel.sendStop, MLabel.beginWait]
    (MState.mk [⟨['w'], 1, false, 0, false⟩] (MPhase.waiting [['w']]) 0)
    (by decide) (by decide) (by decide) (by decide)

end Gum
